import Mathlib

/-!
Shallow embedding of the GitHub activity watcher (src/src/App.js) and
verification of its specified behaviour.

The remote API is modelled as an environment of responses (`Env`); each
endpoint either yields a parsed body or fails with the message of the thrown
exception.  Timestamps are epoch milliseconds (`Int`), matching the numeric
view JavaScript `Date` values take under `Math.max` and comparisons.
-/

set_option autoImplicit false

/-- Equality of modelled endpoint responses is decidable. -/
instance exceptDecEq {ε α : Type} [DecidableEq ε] [DecidableEq α] :
    DecidableEq (Except ε α) := fun a b =>
  match a, b with
  | .ok x, .ok y =>
    if h : x = y then .isTrue (by rw [h]) else .isFalse (fun he => by cases he; exact h rfl)
  | .error x, .error y =>
    if h : x = y then .isTrue (by rw [h]) else .isFalse (fun he => by cases he; exact h rfl)
  | .ok _, .error _ => .isFalse (fun he => by cases he)
  | .error _, .ok _ => .isFalse (fun he => by cases he)

namespace Watcher

/-- `resources.core` of the `/rate_limit` response. -/
structure RateLimitCore where
  limit : Nat
  remaining : Nat
  reset : Nat
deriving DecidableEq

/-- The fields of the `/users/{account}` profile body that the app reads. -/
structure UserData where
  public_repos : Nat
deriving DecidableEq

/-- One element of the `/users/{account}/repos` response. -/
structure Repo where
  name : String
  html_url : String
  homepage : Option String
  language : Option String
  created_at : Int
deriving DecidableEq

/-- One element of the `/repos/{account}/{repo}/commits` response. -/
structure Commit where
  message : String
  author_date : Int
  html_url : String
deriving DecidableEq

/-- The commit shape stored inside an activity card
(`{message, date, commitUrl}`). -/
structure CommitView where
  message : String
  date : Int
  commitUrl : String
deriving DecidableEq

/-- An entry of the `activities` state array (one card). -/
structure Activity where
  profile : String
  repo : String
  repoUrl : String
  productionUrl : Option String
  techStack : Option String
  commits : List CommitView
  repoCount : Nat
  lastUpdated : Int
  creationDate : Int
deriving DecidableEq

/-- Outcome of `fetch` on the `/users/{account}` endpoint: a parsed body when
the response is ok, `notFound` when a response arrived with a non-success
status (`!userResponse.ok`), or a rejected fetch carrying an exception
message. -/
inductive UserResult where
  | found : UserData → UserResult
  | notFound : UserResult
  | fetchError : String → UserResult
deriving DecidableEq

/-- The remote API as seen by one cycle: each endpoint either returns its
parsed body or throws an exception with a message.  `commits` returns the
repository's full commit list; the `since` query parameter is applied by
`listCommits` below, mirroring the server-side filter. -/
structure Env where
  rateLimit : Except String RateLimitCore
  user : String → UserResult
  repos : String → Except String (List Repo)
  commits : String → String → Except String (List Commit)

/-- The fixed reference date: midnight of 2024-09-27
(`new Date(2024, 8, 27)` with hours zeroed), as epoch milliseconds of the
UTC-midnight instant. -/
def sinceDate : Int := 1727395200000

/-- The commits request for one repository: the response is the repo's
commits restricted server-side to `since = sinceDate` (author date on or
after the reference date), or the thrown transport error. -/
def listCommits (env : Env) (p r : String) : Except String (List Commit) :=
  (env.commits p r).map (fun cs => cs.filter (fun c => decide (sinceDate ≤ c.author_date)))

/-- The global message published when `remaining === 0`. -/
def quotaMessage : String :=
  "API rate limit exceeded. Please wait or add a Personal Access Token."

/-- JavaScript `repo.homepage || null`: the empty string is falsy, so it
collapses to `null`. -/
def jsOrNull : Option String → Option String
  | some s => if s = "" then none else some s
  | none => none

/-- `commits.map(commit => ({message, date, commitUrl}))`, one element. -/
def commitView (c : Commit) : CommitView :=
  { message := c.message, date := c.author_date, commitUrl := c.html_url }

/-- `Math.max(...commits.map(c => new Date(c.commit.author.date)))`
(only ever reached with a nonempty list). -/
def maxAuthorDate : List Commit → Int
  | [] => 0
  | c :: cs => cs.foldl (fun m d => max m d.author_date) c.author_date

/-- The object pushed onto `newActivities` for one repository. -/
def mkActivity (p : String) (u : UserData) (r : Repo) (cs : List Commit) : Activity :=
  { profile := p
    repo := r.name
    repoUrl := r.html_url
    productionUrl := jsOrNull r.homepage
    techStack := r.language
    commits := cs.map commitView
    repoCount := u.public_repos
    lastUpdated := maxAuthorDate cs
    creationDate := r.created_at }

/-- The inner `for (const repo of repos)` loop for one account: activities of
the traversed prefix in order, and the message of the first commit-fetch
exception if one occurred (which ends the loop; records already pushed are
kept). -/
def processRepos (env : Env) (p : String) (u : UserData) : List Repo → List Activity × Option String
  | [] => ([], none)
  | r :: rs =>
    match listCommits env p r.name with
    | .error m => ([], some m)
    | .ok cs =>
      let here : List Activity := if cs.isEmpty then [] else [mkActivity p u r cs]
      let rest := processRepos env p u rs
      (here ++ rest.1, rest.2)

/-- The body of the per-profile `try`/`catch`: the activities this account
contributes and its error message, if any. -/
def processProfile (env : Env) (p : String) : List Activity × Option String :=
  match env.user p with
  | .fetchError m => ([], some m)
  | .notFound => ([], some ("User " ++ p ++ " not found"))
  | .found u =>
    match env.repos p with
    | .error m => ([], some m)
    | .ok rl =>
      if rl.isEmpty then ([], some ("No public repositories found for " ++ p))
      else processRepos env p u rl

/-- Write `rest[k] = v` where `rest` holds the entries produced by the later
loop iterations: JavaScript object semantics keep the first write's position
and the last write's value, so an already-present key keeps the later value
but moves to this (earlier) position. -/
def jsInsert (k v : String) (rest : List (String × String)) : List (String × String) :=
  match rest.find? (fun kv => kv.1 == k) with
  | some kv => (k, kv.2) :: rest.filter (fun kv => kv.1 != k)
  | none => (k, v) :: rest

/-- The `for (const profile of profiles)` loop: flattened activities in
profile order, and the error object entries in insertion order. -/
def cycleAccounts (env : Env) : List String → List Activity × List (String × String)
  | [] => ([], [])
  | p :: ps =>
    let r := processProfile env p
    let rest := cycleAccounts env ps
    (r.1 ++ rest.1,
      match r.2 with
      | some m => jsInsert p m rest.2
      | none => rest.2)

/-- The three pieces of state a cycle may publish (`activities`, `errors`,
`rateLimit`); `errors` is the object's entries in insertion order, with the
global message stored under the key `global`. -/
structure CycleState where
  activities : List Activity
  errors : List (String × String)
  rateLimit : Option RateLimitCore
deriving DecidableEq

/-- One run of `fetchData`, mapping the previously published state to the
newly published one.  A rate-limit transport failure publishes only a global
error; an exhausted quota publishes the fresh `RateLimitCore` and a global
error; otherwise all three pieces are replaced from this cycle's work. -/
def fetchData (env : Env) (profiles : List String) (prev : CycleState) : CycleState :=
  match env.rateLimit with
  | .error m =>
    { prev with errors := [("global", "Error checking rate limit: " ++ m)] }
  | .ok core =>
    if core.remaining = 0 then
      { activities := prev.activities
        errors := [("global", quotaMessage)]
        rateLimit := some core }
    else
      let r := cycleAccounts env profiles
      { activities := r.1, errors := r.2, rateLimit := some core }

/-- JavaScript `String.prototype.trim` restricted to the common whitespace
characters. -/
def jsTrim (s : String) : String :=
  String.mk (((s.toList.dropWhile Char.isWhitespace).reverse.dropWhile Char.isWhitespace).reverse)

/-- Helper for `jsSplitComma`: splits the remaining characters at commas,
`acc` holding the current field reversed. -/
def splitCommaAux (acc : List Char) : List Char → List String
  | [] => [String.mk acc.reverse]
  | c :: cs =>
    if c == ',' then String.mk acc.reverse :: splitCommaAux [] cs
    else splitCommaAux (c :: acc) cs

/-- JavaScript `s.split(',')`. -/
def jsSplitComma (s : String) : List String := splitCommaAux [] s.toList

/-- `newProfiles.split(',').map(p => p.trim()).filter(p => p && !profiles.includes(p))`. -/
def parseProfileInput (profiles : List String) (input : String) : List String :=
  ((jsSplitComma input).map jsTrim).filter (fun p => p != "" && !(profiles.contains p))

/-- `handleAddProfiles` as a function of the tracked list and the submitted
text: appends the parsed names when any survive the filter. -/
def handleAddProfiles (profiles : List String) (input : String) : List String :=
  let profileList := parseProfileInput profiles input
  if profileList.length > 0 then profiles ++ profileList else profiles

/-- `setInterval(fetchData, 100000)`: the fixed period in milliseconds. -/
def intervalMs : Nat := 100000

/-- What one run of the effect body does: whether `fetchData` is invoked
immediately and, if a timer is armed, its period. -/
structure EffectRun where
  immediateCycle : Bool
  timerPeriod : Option Nat
deriving DecidableEq

/-- The `useEffect` body: with a nonempty profile list it runs one immediate
cycle and arms the fixed-period timer; otherwise it does neither. -/
def scheduleEffect (profiles : List String) : EffectRun :=
  if profiles.length > 0 then { immediateCycle := true, timerPeriod := some intervalMs }
  else { immediateCycle := false, timerPeriod := none }

/-- Lifecycle events seen by the effect: a (re-)run with the current
dependencies `[profiles, token]`, or the unmount of the owning component. -/
inductive SchedEvent where
  | deps : List String → String → SchedEvent
  | unmount : SchedEvent

/-- The timer pending after a sequence of lifecycle events: every event first
runs the previous effect's cleanup (`clearInterval`), so only the last event
determines the armed timer. -/
def armedTimer (events : List SchedEvent) : Option Nat :=
  events.foldl
    (fun _ e =>
      match e with
      | .deps ps _ => (scheduleEffect ps).timerPeriod
      | .unmount => none)
    none

/-! Concrete fixtures used to instantiate the theorems below. -/

/-- A repository fixture. -/
def repoX : Repo :=
  { name := "x", html_url := "hx", homepage := some "", language := some "JavaScript"
    created_at := 100 }

/-- A repository fixture. -/
def repoY : Repo :=
  { name := "y", html_url := "hy", homepage := none, language := none, created_at := 200 }

/-- A repository fixture. -/
def repoZ : Repo :=
  { name := "z", html_url := "hz", homepage := some "site", language := some "Python"
    created_at := 300 }

/-- A commit dated before the reference date. -/
def commitOld : Commit := { message := "old", author_date := 5, html_url := "u0" }

/-- A commit dated after the reference date. -/
def commitNew : Commit :=
  { message := "new", author_date := sinceDate + 50, html_url := "u1" }

/-- A second commit dated after the reference date, earlier than `commitNew`. -/
def commitMid : Commit :=
  { message := "mid", author_date := sinceDate + 20, html_url := "u2" }

/-- An initial published state: nothing published yet. -/
def state0 : CycleState := { activities := [], errors := [], rateLimit := none }

/-- A fixture environment: `alice` has repos `x` (two qualifying commits and
one stale) and `y` (only stale commits); `bob`'s profile lookup returns a
non-success status; `carol` has one repo with no qualifying commits;
`dave` has zero repositories. -/
def envA : Env :=
  { rateLimit := .ok { limit := 60, remaining := 10, reset := 0 }
    user := fun p =>
      if p == "alice" then .found { public_repos := 7 }
      else if p == "carol" then .found { public_repos := 2 }
      else if p == "dave" then .found { public_repos := 3 }
      else .notFound
    repos := fun p =>
      if p == "alice" then .ok [repoX, repoY]
      else if p == "carol" then .ok [repoZ]
      else .ok []
    commits := fun _ r =>
      if r == "x" then .ok [commitMid, commitNew, commitOld]
      else .ok [commitOld] }

/-- A fixture environment in which `alice`'s first repo `x` succeeds with a
qualifying commit and the commit fetch for her second repo `y` throws. -/
def envFail : Env :=
  { rateLimit := .ok { limit := 60, remaining := 10, reset := 0 }
    user := fun _ => .found { public_repos := 7 }
    repos := fun _ => .ok [repoX, repoY]
    commits := fun _ r =>
      if r == "x" then .ok [commitNew] else .error "network failure" }

/-- A fixture environment whose rate-limit check succeeds with no remaining
quota. -/
def envQuota : Env :=
  { rateLimit := .ok { limit := 60, remaining := 0, reset := 900 }
    user := fun _ => .notFound
    repos := fun _ => .ok []
    commits := fun _ _ => .ok [] }

/-- A fixture environment whose rate-limit check itself throws. -/
def envDown : Env :=
  { rateLimit := .error "Failed to fetch"
    user := fun _ => .notFound
    repos := fun _ => .ok []
    commits := fun _ _ => .ok [] }

/-- A previously published state with a nonempty snapshot, to observe what a
gated cycle leaves untouched. -/
def statePrev : CycleState :=
  { activities := [mkActivity "alice" { public_repos := 7 } repoX [commitNew]]
    errors := [("bob", "User bob not found")]
    rateLimit := some { limit := 60, remaining := 41, reset := 10 } }

/-- The record `envA` produces for `alice`'s repo `x` (its two qualifying
commits in response order). -/
def actAliceX : Activity :=
  mkActivity "alice" { public_repos := 7 } repoX [commitMid, commitNew]

/-! Helper lemmas. -/

/-- The seed of the running maximum never exceeds the fold's result. -/
theorem le_foldl_max_init (cs : List Commit) :
    ∀ init : Int, init ≤ cs.foldl (fun m d => max m d.author_date) init := by
  induction cs with
  | nil => intro init; simp
  | cons c cs ih =>
    intro init
    exact le_trans (le_max_left _ _) (ih (max init c.author_date))

/-- Every commit's date is bounded by the running maximum. -/
theorem le_foldl_max_of_mem (cs : List Commit) (c : Commit) :
    ∀ init : Int, c ∈ cs → c.author_date ≤ cs.foldl (fun m d => max m d.author_date) init := by
  induction cs with
  | nil => intro init h; cases h
  | cons d ds ih =>
    intro init h
    rw [List.foldl_cons]
    rcases List.mem_cons.mp h with h | h
    · subst h
      exact le_trans (le_max_right _ _) (le_foldl_max_init ds _)
    · exact ih _ h

/-- The running maximum is the seed or one of the folded dates. -/
theorem foldl_max_mem (cs : List Commit) :
    ∀ init : Int,
      cs.foldl (fun m d => max m d.author_date) init = init ∨
      cs.foldl (fun m d => max m d.author_date) init ∈ cs.map (fun c => c.author_date) := by
  induction cs with
  | nil => intro init; left; rfl
  | cons c cs ih =>
    intro init
    rcases ih (max init c.author_date) with h | h
    · rw [List.foldl_cons, h]
      rcases le_total init c.author_date with hle | hle
      · right
        rw [max_eq_right hle]
        exact List.mem_map_of_mem _ (List.mem_cons_self c cs)
      · left
        exact max_eq_left hle
    · right
      rw [List.foldl_cons]
      exact List.mem_cons_of_mem _ h

/-- On a nonempty list, `maxAuthorDate` is attained by some commit and bounds
every commit's date. -/
theorem maxAuthorDate_is_max (cs : List Commit) (h : cs ≠ []) :
    maxAuthorDate cs ∈ cs.map (fun c => c.author_date) ∧
    ∀ c ∈ cs, c.author_date ≤ maxAuthorDate cs := by
  match cs with
  | [] => exact absurd rfl h
  | c :: cs =>
    constructor
    · rcases foldl_max_mem cs c.author_date with h1 | h1
      · rw [maxAuthorDate, h1]
        exact List.mem_map_of_mem _ (List.mem_cons_self c cs)
      · rw [maxAuthorDate]
        exact List.mem_cons_of_mem _ h1
    · intro d hd
      rcases List.mem_cons.mp hd with h1 | h1
      · subst h1
        exact le_foldl_max_init cs _
      · exact le_foldl_max_of_mem cs d _ h1

/-- Every commit in a successful commits response is on or after the
reference date. -/
theorem listCommits_dates (env : Env) (p r : String) (cs : List Commit)
    (h : listCommits env p r = .ok cs) : ∀ c ∈ cs, sinceDate ≤ c.author_date := by
  intro c hc
  unfold listCommits at h
  cases he : env.commits p r with
  | error m => rw [he] at h; cases h
  | ok raw =>
    rw [he] at h
    simp only [Except.map] at h
    cases h
    have := (List.mem_filter.mp hc).2
    simpa using this

/-- If the repo loop runs a prefix without an exception, running the whole
list first runs the prefix, keeps its records, and continues with the rest. -/
theorem processRepos_append (env : Env) (p : String) (u : UserData)
    (rs1 rs2 : List Repo) (h : (processRepos env p u rs1).2 = none) :
    processRepos env p u (rs1 ++ rs2) =
      ((processRepos env p u rs1).1 ++ (processRepos env p u rs2).1,
        (processRepos env p u rs2).2) := by
  induction rs1 with
  | nil => simp [processRepos]
  | cons r rs ih =>
    cases hc : listCommits env p r.name with
    | error m => simp [processRepos, hc] at h
    | ok cs =>
      have h' : (processRepos env p u rs).2 = none := by
        simpa [processRepos, hc] using h
      simp [processRepos, hc, ih h', List.append_assoc]

/-- A commit-fetch exception on the head repo ends the loop with no records
and that message. -/
theorem processRepos_error_head (env : Env) (p : String) (u : UserData)
    (r : Repo) (rs : List Repo) (m : String) (h : listCommits env p r.name = .error m) :
    processRepos env p u (r :: rs) = ([], some m) := by
  simp [processRepos, h]

/-- Every record produced by the repo loop comes from a listed repo with a
nonempty qualifying-commit response. -/
theorem mem_processRepos (env : Env) (p : String) (u : UserData)
    (rl : List Repo) (a : Activity) (ha : a ∈ (processRepos env p u rl).1) :
    ∃ r cs, r ∈ rl ∧ listCommits env p r.name = .ok cs ∧ cs ≠ [] ∧
      a = mkActivity p u r cs := by
  induction rl with
  | nil => simp [processRepos] at ha
  | cons r rs ih =>
    cases hc : listCommits env p r.name with
    | error m => simp [processRepos, hc] at ha
    | ok cs =>
      rw [processRepos, hc] at ha
      simp only [List.mem_append] at ha
      rcases ha with ha | ha
      · by_cases he : cs.isEmpty
        · simp [he] at ha
        · refine ⟨r, cs, List.mem_cons_self r rs, hc, ?_, ?_⟩
          · intro hnil
            exact he (by simp [hnil])
          · simpa [he] using ha
      · obtain ⟨r', cs', hr', hc', hne', heq'⟩ := ih ha
        exact ⟨r', cs', List.mem_cons_of_mem _ hr', hc', hne', heq'⟩

/-- If every listed repo answers with zero qualifying commits, the loop
produces no records and no exception. -/
theorem processRepos_all_empty (env : Env) (p : String) (u : UserData)
    (rl : List Repo) (h : ∀ r ∈ rl, listCommits env p r.name = .ok []) :
    processRepos env p u rl = ([], none) := by
  induction rl with
  | nil => rfl
  | cons r rs ih =>
    have hr := h r (List.mem_cons_self r rs)
    have ih' := ih (fun r' hr' => h r' (List.mem_cons_of_mem _ hr'))
    simp [processRepos, hr, ih']

/-- The loop emits records following the discovery order of the repos. -/
theorem processRepos_sublist (env : Env) (p : String) (u : UserData)
    (rl : List Repo) :
    ((processRepos env p u rl).1.map (fun a => a.repo)).Sublist
      (rl.map (fun r => r.name)) := by
  induction rl with
  | nil => simp [processRepos]
  | cons r rs ih =>
    cases hc : listCommits env p r.name with
    | error m => simp [processRepos, hc]
    | ok cs =>
      by_cases he : cs.isEmpty
      · rw [processRepos, hc]
        simp only [he, if_pos, List.nil_append, List.map_cons]
        exact ih.cons _
      · rw [processRepos, hc]
        simp only [he, if_neg, List.map_cons, List.singleton_append]
        exact (ih.cons₂ _)

/-- Every record an account contributes comes from a found profile, a listed
repo, and a nonempty qualifying-commit response. -/
theorem mem_processProfile (env : Env) (p : String) (a : Activity)
    (ha : a ∈ (processProfile env p).1) :
    ∃ u rl r cs, env.user p = .found u ∧ env.repos p = .ok rl ∧ r ∈ rl ∧
      listCommits env p r.name = .ok cs ∧ cs ≠ [] ∧ a = mkActivity p u r cs := by
  cases hu : env.user p with
  | fetchError m => simp [processProfile, hu] at ha
  | notFound => simp [processProfile, hu] at ha
  | found u =>
    cases hr : env.repos p with
    | error m => simp [processProfile, hu, hr] at ha
    | ok rl =>
      by_cases he : rl.isEmpty
      · simp [processProfile, hu, hr, he] at ha
      · simp only [processProfile, hu, hr] at ha
        rw [if_neg he] at ha
        obtain ⟨r, cs, hmem, hc, hne, heq⟩ := mem_processRepos env p u rl a ha
        exact ⟨u, rl, r, cs, rfl, rfl, hmem, hc, hne, heq⟩

/-- A record's `profile` field names the account whose loop iteration built
it. -/
theorem profile_of_mem_processProfile (env : Env) (p : String) (a : Activity)
    (ha : a ∈ (processProfile env p).1) : a.profile = p := by
  obtain ⟨u, rl, r, cs, _, _, _, _, _, heq⟩ := mem_processProfile env p a ha
  rw [heq]
  rfl

/-- Writing a key absent from the later entries just prepends the pair. -/
theorem jsInsert_not_mem (k v : String) (rest : List (String × String))
    (h : ∀ kv ∈ rest, kv.1 ≠ k) : jsInsert k v rest = (k, v) :: rest := by
  unfold jsInsert
  have hf : rest.find? (fun kv => kv.1 == k) = none := by
    apply List.find?_eq_none.mpr
    intro kv hkv
    simp [h kv hkv]
  rw [hf]

/-- A pair in the written object is the written key or was already present. -/
theorem mem_jsInsert (k v : String) (rest : List (String × String))
    (kv : String × String) (h : kv ∈ jsInsert k v rest) : kv.1 = k ∨ kv ∈ rest := by
  unfold jsInsert at h
  cases hf : rest.find? (fun kv => kv.1 == k) with
  | none =>
    rw [hf] at h
    rcases List.mem_cons.mp h with h | h
    · left; rw [h]
    · right; exact h
  | some kv0 =>
    rw [hf] at h
    rcases List.mem_cons.mp h with h | h
    · left; rw [h]
    · right; exact (List.mem_filter.mp h).1

/-- Every error entry of a cycle is keyed by one of the processed accounts. -/
theorem keys_cycleAccounts (env : Env) (ps : List String) :
    ∀ kv ∈ (cycleAccounts env ps).2, kv.1 ∈ ps := by
  induction ps with
  | nil => intro kv h; simp [cycleAccounts] at h
  | cons p ps ih =>
    intro kv h
    simp only [cycleAccounts] at h
    cases he : (processProfile env p).2 with
    | none =>
      rw [he] at h
      exact List.mem_cons_of_mem _ (ih kv h)
    | some m =>
      rw [he] at h
      rcases mem_jsInsert p m _ kv h with h1 | h1
      · rw [h1]
        exact List.mem_cons_self p ps
      · exact List.mem_cons_of_mem _ (ih kv h1)

/-- Every record of a cycle names one of the processed accounts. -/
theorem profile_mem_cycleAccounts (env : Env) (ps : List String) :
    ∀ a ∈ (cycleAccounts env ps).1, a.profile ∈ ps := by
  induction ps with
  | nil => intro a h; simp [cycleAccounts] at h
  | cons p ps ih =>
    intro a h
    simp only [cycleAccounts] at h
    rcases List.mem_append.mp h with h | h
    · rw [profile_of_mem_processProfile env p a h]
      exact List.mem_cons_self p ps
    · exact List.mem_cons_of_mem _ (ih a h)

/-- The records of a concatenated account list are the concatenation of each
part's records. -/
theorem cycleAccounts_fst_append (env : Env) (xs ys : List String) :
    (cycleAccounts env (xs ++ ys)).1 =
      (cycleAccounts env xs).1 ++ (cycleAccounts env ys).1 := by
  induction xs with
  | nil => simp [cycleAccounts]
  | cons x xs ih => simp [cycleAccounts, ih, List.append_assoc]

/-- The cycle's records are the per-account record lists flattened in the
account list's order. -/
theorem cycleAccounts_fst_flatMap (env : Env) (ps : List String) :
    (cycleAccounts env ps).1 = ps.flatMap (fun p => (processProfile env p).1) := by
  induction ps with
  | nil => simp [cycleAccounts]
  | cons p ps ih => simp [cycleAccounts, ih]

/-- With distinct account names, the error entries of a concatenated account
list are the two parts' entries in order. -/
theorem cycleAccounts_snd_append (env : Env) (xs ys : List String)
    (h : (xs ++ ys).Nodup) :
    (cycleAccounts env (xs ++ ys)).2 =
      (cycleAccounts env xs).2 ++ (cycleAccounts env ys).2 := by
  induction xs with
  | nil => simp [cycleAccounts]
  | cons x xs ih =>
    simp only [List.cons_append] at h
    have hx : x ∉ xs ++ ys := (List.nodup_cons.mp h).1
    have h' : (xs ++ ys).Nodup := (List.nodup_cons.mp h).2
    have h1 : ∀ kv ∈ (cycleAccounts env xs).2 ++ (cycleAccounts env ys).2, kv.1 ≠ x := by
      intro kv hkv
      rcases List.mem_append.mp hkv with hk | hk
      · intro e
        exact hx (List.mem_append_left _ (e ▸ keys_cycleAccounts env xs kv hk))
      · intro e
        exact hx (List.mem_append_right _ (e ▸ keys_cycleAccounts env ys kv hk))
    have h2 : ∀ kv ∈ (cycleAccounts env xs).2, kv.1 ≠ x := by
      intro kv hk
      exact h1 kv (List.mem_append_left _ hk)
    cases he : (processProfile env x).2 with
    | none =>
      simp only [List.cons_append, cycleAccounts, he, List.append_eq]
      exact ih h'
    | some m =>
      simp only [List.cons_append, cycleAccounts, he, List.append_eq]
      rw [ih h', jsInsert_not_mem _ _ _ h1, jsInsert_not_mem _ _ _ h2]
      simp

/-- When the rate-limit check succeeds with remaining quota, the cycle
publishes exactly this cycle's records, this cycle's error entries, and the
fresh rate-limit status. -/
theorem fetchData_ok (env : Env) (profiles : List String) (prev : CycleState)
    (core : RateLimitCore) (h : env.rateLimit = .ok core) (hr : core.remaining ≠ 0) :
    fetchData env profiles prev =
      { activities := (cycleAccounts env profiles).1
        errors := (cycleAccounts env profiles).2
        rateLimit := some core } := by
  simp [fetchData, h, hr]

/-! Claim theorems. -/

/-- Claim C1, counterexample: with one tracked account whose first repository
succeeds with a qualifying commit and whose second repository's commit fetch
throws, the published CycleResult still contains one ActivityRecord for that
account (not zero), alongside the error entry — the gathered results are not
discarded. -/
theorem c1_counterexample :
    ((fetchData envFail ["alice"] state0).activities.filter
        (fun a => a.profile == "alice")).length = 1 ∧
    (fetchData envFail ["alice"] state0).activities =
      [mkActivity "alice" { public_repos := 7 } repoX [commitNew]] ∧
    (fetchData envFail ["alice"] state0).errors = [("alice", "network failure")] := by
  refine ⟨?_, ?_, ?_⟩ <;> decide

/-- Claim C1, amended: when a commit fetch fails mid-account, the cycle
records one error entry for the account carrying the failure message and the
remaining repositories are not processed (the published state does not
depend on them), but ActivityRecords already gathered from the account's
earlier repositories in the same cycle are kept in the published
CycleResult. -/
theorem c1_commit_failure_keeps_earlier_records (env : Env) (prev : CycleState)
    (core : RateLimitCore) (p : String) (u : UserData) (rs1 : List Repo) (r : Repo)
    (rs2 : List Repo) (m : String)
    (hrl : env.rateLimit = .ok core) (hrem : core.remaining ≠ 0)
    (hu : env.user p = .found u)
    (hrep : env.repos p = .ok (rs1 ++ r :: rs2))
    (hpre : (processRepos env p u rs1).2 = none)
    (hfail : listCommits env p r.name = .error m) :
    (fetchData env [p] prev).activities = (processRepos env p u rs1).1 ∧
    (fetchData env [p] prev).errors = [(p, m)] := by
  have hne : ¬(rs1 ++ r :: rs2).isEmpty := by
    cases rs1 <;> simp
  have hpp : processProfile env p = ((processRepos env p u rs1).1, some m) := by
    have h1 : processProfile env p = processRepos env p u (rs1 ++ r :: rs2) := by
      simp only [processProfile, hu, hrep]
      rw [if_neg hne]
    rw [h1, processRepos_append env p u rs1 (r :: rs2) hpre,
      processRepos_error_head env p u r rs2 m hfail]
    simp
  rw [fetchData_ok env [p] prev core hrl hrem]
  constructor
  · simp [cycleAccounts, hpp]
  · simp [cycleAccounts, hpp, jsInsert]

/-- Claim C1, amended, witness: the amended theorem instantiated at the
counterexample fixture. -/
theorem c1_commit_failure_keeps_earlier_records_witness :
    envFail.rateLimit = Except.ok { limit := 60, remaining := 10, reset := 0 } ∧
    ({ limit := 60, remaining := 10, reset := 0 } : RateLimitCore).remaining ≠ 0 ∧
    envFail.user "alice" = UserResult.found { public_repos := 7 } ∧
    envFail.repos "alice" = Except.ok ([repoX] ++ repoY :: []) ∧
    (processRepos envFail "alice" { public_repos := 7 } [repoX]).2 = none ∧
    listCommits envFail "alice" repoY.name = Except.error "network failure" ∧
    (fetchData envFail ["alice"] state0).activities =
      (processRepos envFail "alice" { public_repos := 7 } [repoX]).1 ∧
    (fetchData envFail ["alice"] state0).errors = [("alice", "network failure")] := by
  have h := c1_commit_failure_keeps_earlier_records envFail state0
    { limit := 60, remaining := 10, reset := 0 } "alice" { public_repos := 7 }
    [repoX] repoY [] "network failure" rfl (by decide) rfl rfl (by decide) rfl
  exact ⟨rfl, by decide, rfl, rfl, by decide, rfl, h.1, h.2⟩

/-- Claim C2: if the rate-limit check succeeds but reports zero remaining
quota, the cycle publishes the previous activities snapshot untouched,
replaces the error surface with the single global quota message, and updates
only the rate-limit status — independent of the tracked accounts and of
every other endpoint. -/
theorem c2_quota_exhausted_preserves_snapshot (env : Env) (profiles : List String)
    (prev : CycleState) (core : RateLimitCore)
    (h : env.rateLimit = .ok core) (hr : core.remaining = 0) :
    fetchData env profiles prev =
      { activities := prev.activities
        errors := [("global", quotaMessage)]
        rateLimit := some core } := by
  simp [fetchData, h, hr]

/-- Claim C2, witness: the quota-exhausted environment applied to a nonempty
previously published state. -/
theorem c2_quota_exhausted_preserves_snapshot_witness :
    envQuota.rateLimit = Except.ok { limit := 60, remaining := 0, reset := 900 } ∧
    ({ limit := 60, remaining := 0, reset := 900 } : RateLimitCore).remaining = 0 ∧
    fetchData envQuota ["alice"] statePrev =
      { activities := statePrev.activities
        errors := [("global", quotaMessage)]
        rateLimit := some { limit := 60, remaining := 0, reset := 900 } } :=
  ⟨rfl, rfl,
    c2_quota_exhausted_preserves_snapshot envQuota ["alice"] statePrev
      { limit := 60, remaining := 0, reset := 900 } rfl rfl⟩

/-- Claim C3: if the rate-limit status request itself fails, the cycle aborts
with exactly one global error and no per-account work (the published state
does not depend on the accounts or the other endpoints, and the previous
snapshot survives); likewise the quota-exceeded case replaces the whole
error surface with one global message. -/
theorem c3_rate_limit_check_failure_aborts (env envQ : Env)
    (profiles profilesQ : List String) (prev prevQ : CycleState) (m : String)
    (core : RateLimitCore) (h : env.rateLimit = .error m)
    (hq : envQ.rateLimit = .ok core) (hr : core.remaining = 0) :
    fetchData env profiles prev =
      { prev with errors := [("global", "Error checking rate limit: " ++ m)] } ∧
    (fetchData envQ profilesQ prevQ).errors = [("global", quotaMessage)] := by
  constructor
  · simp [fetchData, h]
  · simp [fetchData, hq, hr]

/-- Claim C3, witness: an unreachable rate-limit endpoint and a
quota-exhausted one, each at a concrete cycle. -/
theorem c3_rate_limit_check_failure_aborts_witness :
    envDown.rateLimit = Except.error "Failed to fetch" ∧
    envQuota.rateLimit = Except.ok { limit := 60, remaining := 0, reset := 900 } ∧
    ({ limit := 60, remaining := 0, reset := 900 } : RateLimitCore).remaining = 0 ∧
    fetchData envDown ["alice"] statePrev =
      { statePrev with
        errors := [("global", "Error checking rate limit: " ++ "Failed to fetch")] } ∧
    (fetchData envQuota ["bob"] state0).errors = [("global", quotaMessage)] := by
  have h := c3_rate_limit_check_failure_aborts envDown envQuota ["alice"] ["bob"]
    statePrev state0 "Failed to fetch" { limit := 60, remaining := 0, reset := 900 }
    rfl rfl rfl
  exact ⟨rfl, rfl, rfl, h.1, h.2⟩

/-- Claim C4: every ActivityRecord an account contributes carries
`repoCount` equal to the profile's `public_repos` (a profile-level
aggregate, independent of how many repositories had activity), and its
`lastUpdated` equals the maximum `authorDate` among the repository's
returned commits — it is attained by one of them and bounds all of them. -/
theorem c4_record_fields (env : Env) (p : String) (u : UserData) (a : Activity)
    (hu : env.user p = .found u) (ha : a ∈ (processProfile env p).1) :
    a.repoCount = u.public_repos ∧
    ∃ cs, listCommits env p a.repo = .ok cs ∧ cs ≠ [] ∧
      a.commits = cs.map commitView ∧
      a.lastUpdated ∈ cs.map (fun c => c.author_date) ∧
      ∀ c ∈ cs, c.author_date ≤ a.lastUpdated := by
  obtain ⟨u', rl, r, cs, hu', hr, hmem, hc, hne, heq⟩ := mem_processProfile env p a ha
  have huu : u' = u := by
    have h2 := hu'.symm.trans hu
    injection h2
  subst huu
  subst heq
  refine ⟨rfl, cs, ?_, hne, rfl, ?_, ?_⟩
  · simpa [mkActivity] using hc
  · simpa [mkActivity] using (maxAuthorDate_is_max cs hne).1
  · intro c hcm
    simpa [mkActivity] using (maxAuthorDate_is_max cs hne).2 c hcm

/-- Claim C4, witness: `alice`'s record for repo `x` in the fixture
environment. -/
theorem c4_record_fields_witness :
    envA.user "alice" = UserResult.found { public_repos := 7 } ∧
    actAliceX ∈ (processProfile envA "alice").1 ∧
    actAliceX.repoCount = 7 ∧
    listCommits envA "alice" actAliceX.repo = .ok [commitMid, commitNew] ∧
    actAliceX.commits = [commitMid, commitNew].map commitView ∧
    actAliceX.lastUpdated ∈ [commitMid, commitNew].map (fun c => c.author_date) ∧
    commitMid.author_date ≤ actAliceX.lastUpdated ∧
    commitNew.author_date ≤ actAliceX.lastUpdated := by
  have h := c4_record_fields envA "alice" { public_repos := 7 } actAliceX rfl (by decide)
  obtain ⟨hcount, cs, hc, _, hcv, hmem, hub⟩ := h
  have h0 : listCommits envA "alice" actAliceX.repo = .ok [commitMid, commitNew] := by
    decide
  rw [h0] at hc
  injection hc with hcs
  subst hcs
  exact ⟨rfl, by decide, hcount, h0, hcv, hmem,
    hub commitMid (by decide), hub commitNew (by decide)⟩

/-- Claim C5: an account whose profile lookup fails (non-success status, or a
thrown transport error) contributes exactly one error entry — keyed by the
account, carrying `"User <account> not found"` or the transport message —
and zero ActivityRecords, while every other tracked account's records and
error entries in the same cycle are exactly what that account's own
processing yields. -/
theorem c5_profile_failure_isolated (env : Env) (prev : CycleState)
    (core : RateLimitCore) (ps1 ps2 : List String) (p msg : String)
    (hrl : env.rateLimit = .ok core) (hrem : core.remaining ≠ 0)
    (hnd : (ps1 ++ p :: ps2).Nodup)
    (hfail : env.user p = .notFound ∧ msg = "User " ++ p ++ " not found" ∨
      env.user p = .fetchError msg) :
    (fetchData env (ps1 ++ p :: ps2) prev).activities =
      (cycleAccounts env ps1).1 ++ (cycleAccounts env ps2).1 ∧
    (fetchData env (ps1 ++ p :: ps2) prev).errors =
      (cycleAccounts env ps1).2 ++ (p, msg) :: (cycleAccounts env ps2).2 ∧
    (∀ a ∈ (fetchData env (ps1 ++ p :: ps2) prev).activities, a.profile ≠ p) ∧
    (∀ kv ∈ (cycleAccounts env ps1).2, kv.1 ≠ p) ∧
    (∀ kv ∈ (cycleAccounts env ps2).2, kv.1 ≠ p) := by
  obtain ⟨hnd1, hndc, hdisj⟩ := List.nodup_append.mp hnd
  have hp1 : p ∉ ps1 := fun hp => hdisj hp (List.mem_cons_self p ps2)
  have hp2 : p ∉ ps2 := (List.nodup_cons.mp hndc).1
  have hk2 : ∀ kv ∈ (cycleAccounts env ps2).2, kv.1 ≠ p := by
    intro kv hk e
    exact hp2 (e ▸ keys_cycleAccounts env ps2 kv hk)
  have hk1 : ∀ kv ∈ (cycleAccounts env ps1).2, kv.1 ≠ p := by
    intro kv hk e
    exact hp1 (e ▸ keys_cycleAccounts env ps1 kv hk)
  have hpp : processProfile env p = ([], some msg) := by
    rcases hfail with ⟨h1, h2⟩ | h1
    · simp [processProfile, h1, h2]
    · simp [processProfile, h1]
  have hf := fetchData_ok env (ps1 ++ p :: ps2) prev core hrl hrem
  have hact : (fetchData env (ps1 ++ p :: ps2) prev).activities =
      (cycleAccounts env ps1).1 ++ (cycleAccounts env ps2).1 := by
    rw [hf]
    show (cycleAccounts env (ps1 ++ p :: ps2)).1 = _
    rw [cycleAccounts_fst_append]
    simp [cycleAccounts, hpp]
  refine ⟨hact, ?_, ?_, hk1, hk2⟩
  · rw [hf]
    show (cycleAccounts env (ps1 ++ p :: ps2)).2 = _
    rw [cycleAccounts_snd_append env ps1 (p :: ps2) hnd]
    have : (cycleAccounts env (p :: ps2)).2 = (p, msg) :: (cycleAccounts env ps2).2 := by
      simp only [cycleAccounts, hpp]
      exact jsInsert_not_mem p msg _ hk2
    rw [this]
  · intro a ha e
    rw [hact] at ha
    rcases List.mem_append.mp ha with h1 | h1
    · exact hp1 (e ▸ profile_mem_cycleAccounts env ps1 a h1)
    · exact hp2 (e ▸ profile_mem_cycleAccounts env ps2 a h1)

/-- Claim C5, witness: `bob`'s profile lookup 404s between `alice` and
`carol`; his single error entry sits between their outputs. -/
theorem c5_profile_failure_isolated_witness :
    envA.rateLimit = Except.ok { limit := 60, remaining := 10, reset := 0 } ∧
    ({ limit := 60, remaining := 10, reset := 0 } : RateLimitCore).remaining ≠ 0 ∧
    (["alice"] ++ "bob" :: ["carol"]).Nodup ∧
    envA.user "bob" = UserResult.notFound ∧
    (fetchData envA (["alice"] ++ "bob" :: ["carol"]) state0).activities =
      (cycleAccounts envA ["alice"]).1 ++ (cycleAccounts envA ["carol"]).1 ∧
    (fetchData envA (["alice"] ++ "bob" :: ["carol"]) state0).errors =
      (cycleAccounts envA ["alice"]).2 ++
        ("bob", "User bob not found") :: (cycleAccounts envA ["carol"]).2 := by
  have h := c5_profile_failure_isolated envA state0
    { limit := 60, remaining := 10, reset := 0 } ["alice"] ["carol"]
    "bob" "User bob not found" rfl (by decide) (by decide) (Or.inl ⟨rfl, rfl⟩)
  exact ⟨rfl, by decide, by decide, rfl, h.1, h.2.1⟩

/-- Claim C6: no ActivityRecord is ever built from an empty qualifying-commit
response (every record holds a nonempty commit list, all dated on or after
the reference date); an account whose repositories all answer with zero
qualifying commits yields no records and no error entry; an account with
zero repositories yields no records and the error
`"No public repositories found for <account>"`. -/
theorem c6_no_record_without_commits :
    (∀ env p a, a ∈ (processProfile env p).1 →
      a.commits ≠ [] ∧ ∀ cv ∈ a.commits, sinceDate ≤ cv.date) ∧
    (∀ env p u rl, env.user p = .found u → env.repos p = .ok rl → rl ≠ [] →
      (∀ r ∈ rl, listCommits env p r.name = .ok []) →
      processProfile env p = ([], none)) ∧
    (∀ env p u, env.user p = .found u → env.repos p = .ok [] →
      processProfile env p = ([], some ("No public repositories found for " ++ p))) := by
  refine ⟨?_, ?_, ?_⟩
  · intro env p a ha
    obtain ⟨u, rl, r, cs, _, _, _, hc, hne, heq⟩ := mem_processProfile env p a ha
    subst heq
    constructor
    · simp [mkActivity, hne]
    · intro cv hcv
      simp only [mkActivity, List.mem_map] at hcv
      obtain ⟨c, hcm, hcveq⟩ := hcv
      have := listCommits_dates env p r.name cs hc c hcm
      rw [← hcveq]
      simpa [commitView] using this
  · intro env p u rl hu hr hne hall
    have h0 := processRepos_all_empty env p u rl hall
    have hie : ¬rl.isEmpty := by simpa [List.isEmpty_iff] using hne
    simp only [processProfile, hu, hr]
    rw [if_neg hie, h0]
  · intro env p u hu hr
    simp [processProfile, hu, hr]

/-- Claim C6, witness: `alice`'s record has nonempty qualifying commits;
`carol` (repos but no qualifying commits) yields nothing and no error;
`dave` (zero repos) yields the no-repositories error. -/
theorem c6_no_record_without_commits_witness :
    actAliceX ∈ (processProfile envA "alice").1 ∧
    actAliceX.commits ≠ [] ∧
    envA.user "carol" = UserResult.found { public_repos := 2 } ∧
    envA.repos "carol" = Except.ok [repoZ] ∧
    ([repoZ] : List Repo) ≠ [] ∧
    (∀ r ∈ [repoZ], listCommits envA "carol" r.name = .ok []) ∧
    processProfile envA "carol" = ([], none) ∧
    envA.user "dave" = UserResult.found { public_repos := 3 } ∧
    envA.repos "dave" = Except.ok [] ∧
    processProfile envA "dave" =
      ([], some ("No public repositories found for " ++ "dave")) := by
  refine ⟨by decide, ?_, rfl, rfl, by decide, by decide, ?_, rfl, rfl, ?_⟩
  · exact (c6_no_record_without_commits.1 envA "alice" actAliceX (by decide)).1
  · exact c6_no_record_without_commits.2.1 envA "carol" { public_repos := 2 }
      [repoZ] rfl rfl (by decide) (by decide)
  · exact c6_no_record_without_commits.2.2 envA "dave" { public_repos := 3 } rfl rfl

/-- Claim C7, counterexample: a single submission containing the same new
name twice passes the filter twice — the tracked list ends up with a
duplicate identifier. -/
theorem c7_counterexample :
    handleAddProfiles [] "a,a" = ["a", "a"] ∧
    ¬(handleAddProfiles [] "a,a").Nodup := by
  constructor <;> decide

/-- Claim C7, amended: an add operation de-duplicates the submitted names
against the already-tracked set only, not within a single submission; the
tracked list therefore stays duplicate-free provided the names of each
single submission are pairwise distinct after trimming. -/
theorem c7_add_profiles_nodup (profiles : List String) (input : String)
    (h1 : profiles.Nodup) (h2 : ((jsSplitComma input).map jsTrim).Nodup) :
    (handleAddProfiles profiles input).Nodup := by
  unfold handleAddProfiles
  by_cases hl : (parseProfileInput profiles input).length > 0
  · rw [if_pos hl]
    apply List.nodup_append.mpr
    refine ⟨h1, ?_, ?_⟩
    · unfold parseProfileInput
      exact List.Nodup.filter _ h2
    · intro a hap hal
      unfold parseProfileInput at hal
      have hb := (List.mem_filter.mp hal).2
      rw [Bool.and_eq_true] at hb
      have hc := hb.2
      rw [Bool.not_eq_true'] at hc
      rw [← List.elem_iff (α := String)] at hap
      exact absurd hap (by simp [List.contains] at hc; simp [hc])
  · rw [if_neg hl]
    exact h1

/-- Claim C7, amended, witness: two distinct fresh names joined to a
duplicate-free tracked list stay duplicate-free. -/
theorem c7_add_profiles_nodup_witness :
    (["alice"] : List String).Nodup ∧
    ((jsSplitComma "bob , carol").map jsTrim).Nodup ∧
    (handleAddProfiles ["alice"] "bob , carol").Nodup :=
  ⟨by decide, by decide,
    c7_add_profiles_nodup ["alice"] "bob , carol" (by decide) (by decide)⟩

/-- Claim C8: a submission whose trimmed names are all empty or already
tracked changes nothing — adding an already-present account leaves the
tracked list and its order unchanged. -/
theorem c8_add_existing_noop (profiles : List String) (input : String)
    (h : ∀ q ∈ (jsSplitComma input).map jsTrim, q = "" ∨ q ∈ profiles) :
    handleAddProfiles profiles input = profiles := by
  have hl : parseProfileInput profiles input = [] := by
    unfold parseProfileInput
    apply List.filter_eq_nil_iff.mpr
    intro q hq
    rcases h q hq with h1 | h1
    · simp [h1]
    · simp [h1, List.contains, List.elem_iff]
  unfold handleAddProfiles
  rw [hl]
  simp

/-- Claim C8, witness: re-submitting both tracked names leaves the list
unchanged. -/
theorem c8_add_existing_noop_witness :
    (∀ q ∈ (jsSplitComma "alice, bob").map jsTrim,
      q = "" ∨ q ∈ (["alice", "bob"] : List String)) ∧
    handleAddProfiles ["alice", "bob"] "alice, bob" = ["alice", "bob"] :=
  ⟨by decide, c8_add_existing_noop ["alice", "bob"] "alice, bob" (by decide)⟩

/-- Claim C9: a nonempty tracked-account list makes the effect run one
immediate cycle and arm the fixed 100-second (100000 ms) timer — also after
a credential change, since any dependency change re-runs the effect — while
unmounting the owning component or re-running with an empty account list
leaves no pending timer. -/
theorem c9_scheduler_lifecycle (events : List SchedEvent) (ps : List String)
    (t t2 : String) (h : ps ≠ []) :
    (scheduleEffect ps).immediateCycle = true ∧
    (scheduleEffect ps).timerPeriod = some 100000 ∧
    armedTimer (events ++ [SchedEvent.deps ps t]) = some 100000 ∧
    armedTimer (events ++ [SchedEvent.unmount]) = none ∧
    armedTimer (events ++ [SchedEvent.deps [] t2]) = none := by
  have hlen : 0 < ps.length := List.length_pos.mpr h
  have hse : scheduleEffect ps =
      { immediateCycle := true, timerPeriod := some intervalMs } := by
    simp [scheduleEffect, hlen]
  refine ⟨by rw [hse], by rw [hse]; rfl, ?_, ?_, ?_⟩
  · unfold armedTimer
    rw [List.foldl_append]
    simp [hse, intervalMs]
  · unfold armedTimer
    rw [List.foldl_append]
    simp
  · unfold armedTimer
    rw [List.foldl_append]
    simp [scheduleEffect]

/-- Claim C9, witness: the lifecycle at a singleton account list and the
empty event history. -/
theorem c9_scheduler_lifecycle_witness :
    (["alice"] : List String) ≠ [] ∧
    (scheduleEffect ["alice"]).immediateCycle = true ∧
    (scheduleEffect ["alice"]).timerPeriod = some 100000 ∧
    armedTimer ([] ++ [SchedEvent.deps ["alice"] "tok"]) = some 100000 ∧
    armedTimer ([] ++ [SchedEvent.unmount]) = none ∧
    armedTimer ([] ++ [SchedEvent.deps [] "tok2"]) = none := by
  have h := c9_scheduler_lifecycle [] ["alice"] "tok" "tok2" (by decide)
  exact ⟨by decide, h.1, h.2.1, h.2.2.1, h.2.2.2.1, h.2.2.2.2⟩

/-- Claim C10: a successful cycle's records are the per-account record lists
flattened in the tracked list's insertion order; within an account the
records follow the repositories' discovery order; and each record's commits
are the API's (since-filtered) response mapped in order. -/
theorem c10_output_ordering (env : Env) (prev : CycleState)
    (profiles : List String) (core : RateLimitCore)
    (h1 : env.rateLimit = .ok core) (h2 : core.remaining ≠ 0) :
    (fetchData env profiles prev).activities =
      profiles.flatMap (fun p => (processProfile env p).1) ∧
    (∀ p u rl, env.user p = .found u → env.repos p = .ok rl →
      ((processProfile env p).1.map (fun a => a.repo)).Sublist
        (rl.map (fun r => r.name))) ∧
    (∀ p a, a ∈ (processProfile env p).1 →
      ∃ cs, listCommits env p a.repo = .ok cs ∧ a.commits = cs.map commitView) := by
  refine ⟨?_, ?_, ?_⟩
  · rw [fetchData_ok env profiles prev core h1 h2]
    exact cycleAccounts_fst_flatMap env profiles
  · intro p u rl hu hr
    by_cases he : rl.isEmpty
    · have h0 : rl = [] := by simpa [List.isEmpty_iff] using he
      subst h0
      simp [processProfile, hu, hr]
    · have hpp : processProfile env p = processRepos env p u rl := by
        simp only [processProfile, hu, hr]
        rw [if_neg he]
      rw [hpp]
      exact processRepos_sublist env p u rl
  · intro p a ha
    obtain ⟨u, rl, r, cs, _, _, _, hc, _, heq⟩ := mem_processProfile env p a ha
    subst heq
    exact ⟨cs, by simpa [mkActivity] using hc, rfl⟩

/-- Claim C10, witness: the fixture cycle over `alice` then `carol`, with the
ordering facts instantiated at `alice` and her repo-`x` record. -/
theorem c10_output_ordering_witness :
    envA.rateLimit = Except.ok { limit := 60, remaining := 10, reset := 0 } ∧
    ({ limit := 60, remaining := 10, reset := 0 } : RateLimitCore).remaining ≠ 0 ∧
    (fetchData envA ["alice", "carol"] state0).activities =
      ["alice", "carol"].flatMap (fun p => (processProfile envA p).1) ∧
    envA.user "alice" = UserResult.found { public_repos := 7 } ∧
    envA.repos "alice" = Except.ok [repoX, repoY] ∧
    ((processProfile envA "alice").1.map (fun a => a.repo)).Sublist
      ([repoX, repoY].map (fun r => r.name)) ∧
    actAliceX ∈ (processProfile envA "alice").1 ∧
    listCommits envA "alice" actAliceX.repo = .ok [commitMid, commitNew] ∧
    actAliceX.commits = [commitMid, commitNew].map commitView := by
  have h := c10_output_ordering envA state0 ["alice", "carol"]
    { limit := 60, remaining := 10, reset := 0 } rfl (by decide)
  obtain ⟨cs, hc, hcv⟩ := h.2.2 "alice" actAliceX (by decide)
  have h0 : listCommits envA "alice" actAliceX.repo = .ok [commitMid, commitNew] := by
    decide
  rw [h0] at hc
  injection hc with hcs
  subst hcs
  exact ⟨rfl, by decide, h.1, rfl, rfl,
    h.2.1 "alice" { public_repos := 7 } [repoX, repoY] rfl rfl,
    by decide, h0, hcv⟩

end Watcher
